import Mathlib

/-!
Verification of the keyvaluestore core against its specification.

The development shallowly embeds the relevant parts of the Go source:

* the in-memory backend (`memorystore`): its value model, the sorted-hash
  representation (a side table of scores per field plus an ordered map keyed
  by the 8-byte score sort key concatenated with the field), the range scans,
  and the atomic-write transaction evaluator;
* the read cache (`keyvaluestorecache.ReadCache`) with its two cache planes;
* the invalidator decorator (`keyvaluestoreinvalidator`).

Machine integers are embedded as `Nat` with explicit bounds: a `uint64` is a
`Nat` below `2 ^ 64`, and XOR against constants is expressed arithmetically
(XOR with all 64 one-bits is the complement `2 ^ 64 - 1 - n`; XOR with only
the sign bit, on a value whose sign bit is clear, is `n + 2 ^ 63`).

A Go `float64` is embedded as its IEEE-754 bit pattern (a `Nat` below
`2 ^ 64`).  The comparison predicates on non-NaN patterns are modelled from
the IEEE-754 sign/magnitude encoding: for two patterns of equal sign the
order of the magnitudes is the order of the raw patterns (reversed for
negative sign), `-0.0` and `+0.0` compare equal, and NaN patterns are
excluded by hypothesis.

Go strings are embedded as Lean `String`s, byte strings of sort keys as
`List Nat` (one entry per byte), and Go maps as association lists.
-/

/-- Width of a packed score sort key in bytes (`floatSortKeyNumBytes`). -/
def floatSortKeyNumBytes : Nat := 8

/-- The IEEE-754 binary64 sign-bit mask `1 <<< 63`. -/
def signMask : Nat := 2 ^ 63

/-- One past the largest unsigned 64-bit value. -/
def w64 : Nat := 2 ^ 64

/-- Exponent field of a binary64 bit pattern. -/
def expField (n : Nat) : Nat := (n / 2 ^ 52) % 2 ^ 11

/-- Mantissa field of a binary64 bit pattern. -/
def mantissa (n : Nat) : Nat := n % 2 ^ 52

/-- A binary64 bit pattern denotes NaN iff its exponent field is all ones and
its mantissa is nonzero. -/
def IsNaN (n : Nat) : Prop := expField n = 2 ^ 11 - 1 ∧ mantissa n ≠ 0

instance (n : Nat) : Decidable (IsNaN n) := by unfold IsNaN; infer_instance

/-- Modelled from IEEE-754: the `<=` comparison of Go `float64` on non-NaN bit
patterns.  For clear sign bits the raw patterns order like the values; for set
sign bits the order is reversed; every negative value is below every positive
one except that `-0.0` (pattern `signMask`) and `+0.0` (pattern `0`) compare
equal. -/
def ieeeLe (a b : Nat) : Prop :=
  if signMask ≤ a then
    (if signMask ≤ b then b ≤ a else True)
  else
    (if signMask ≤ b then a = 0 ∧ b = signMask else a ≤ b)

instance (a b : Nat) : Decidable (ieeeLe a b) := by unfold ieeeLe; infer_instance

/-- The strict IEEE-754 `<` comparison on non-NaN bit patterns. -/
def ieeeLt (a b : Nat) : Prop := ieeeLe a b ∧ ¬ ieeeLe b a

/-- The sign/magnitude total order on binary64 bit patterns: like `ieeeLe`
but with `-0.0` strictly below `+0.0`.  This is the order realized by the
packed sort keys. -/
def totLe (a b : Nat) : Prop :=
  if signMask ≤ a then
    (if signMask ≤ b then b ≤ a else True)
  else
    (if signMask ≤ b then False else a ≤ b)

instance (a b : Nat) : Decidable (totLe a b) := by unfold totLe; infer_instance

/-- `floatSortKey` of the source at the bit level: if the sign bit is set,
invert all 64 bits (the complement `2 ^ 64 - 1 - n`), otherwise flip only the
sign bit (`n + 2 ^ 63` as the sign bit is clear). -/
def floatSortKeyBits (n : Nat) : Nat :=
  if signMask ≤ n then (w64 - 1) - n else n + signMask

/-- `sortKeyFloat` of the source at the bit level: the inverse transform of
`floatSortKeyBits`. -/
def sortKeyFloatBits (m : Nat) : Nat :=
  if signMask ≤ m then m - signMask else (w64 - 1) - m

/-- `floatSortKeyAfter` of the source: the sort key incremented by one, with
`none` standing for the empty string returned when the increment overflows
64 bits. -/
def floatSortKeyAfterBits (n : Nat) : Option Nat :=
  if floatSortKeyBits n + 1 = w64 then none else some (floatSortKeyBits n + 1)

/-- Big-endian byte decomposition of a `Nat` into `w` bytes, most significant
first (`binary.BigEndian.PutUint64` with `w = 8`). -/
def beBytes : Nat → Nat → List Nat
  | 0, _ => []
  | w + 1, n => n / 256 ^ w :: beBytes w (n % 256 ^ w)

/-- The 8-byte string produced by `floatSortKey`, as a list of bytes. -/
def floatSortKeyStr (n : Nat) : List Nat := beBytes 8 (floatSortKeyBits n)

/-- Bytewise lexicographic `<=` on byte strings (Go string comparison). -/
def bytesLe : List Nat → List Nat → Bool
  | [], _ => true
  | _ :: _, [] => false
  | a :: as, b :: bs => a < b || (a == b && bytesLe as bs)

/-- Entries of the ordered map inside a `sortedSet`.  The map in the source is
keyed by the flat byte string `floatSortKey(score) + field`; since the sort
key occupies exactly the first 8 bytes of every key, comparison of the flat
strings coincides with the lexicographic comparison of the pair
(8-byte sort key, field suffix), which is how the key is represented here. -/
structure ZEntry where
  skey : Nat
  field : String
  value : String
deriving DecidableEq, Repr

/-- Strict order on ordered-map keys: the pair (sort key, field) ordered
lexicographically, matching Go string comparison of the flat keys. -/
def zkeyLtB (x y : Nat × String) : Bool :=
  decide (x.1 < y.1) || (x.1 == y.1 && decide (x.2.data < y.2.data))

/-- `OrderedMap.Set`: insert an entry into the ascending entry list, replacing
an entry with an identical key. -/
def omInsert (e : ZEntry) : List ZEntry → List ZEntry
  | [] => [e]
  | x :: xs =>
    if zkeyLtB (e.skey, e.field) (x.skey, x.field) then e :: x :: xs
    else if e.skey == x.skey && e.field == x.field then e :: xs
    else x :: omInsert e xs

/-- `OrderedMap.Delete`: remove the entry with the given key, if present. -/
def omErase (sk : Nat) (f : String) (l : List ZEntry) : List ZEntry :=
  l.filter (fun x => !(x.skey == sk && x.field == f))

/-- Association-list lookup (Go map read). -/
def alGet {κ ν : Type} [DecidableEq κ] (k : κ) : List (κ × ν) → Option ν
  | [] => none
  | p :: rest => if p.1 = k then some p.2 else alGet k rest

/-- Association-list update (Go map write): replace in place or append. -/
def alSet {κ ν : Type} [DecidableEq κ] (k : κ) (v : ν) : List (κ × ν) → List (κ × ν)
  | [] => [(k, v)]
  | p :: rest => if p.1 = k then (k, v) :: rest else p :: alSet k v rest

/-- Association-list removal (Go `delete`). -/
def alErase {κ ν : Type} [DecidableEq κ] (k : κ) (l : List (κ × ν)) : List (κ × ν) :=
  l.filter (fun p => !(p.1 == k))

/-- The `sortedSet` representation: the `scoresByMember` side table mapping a
field to the bit pattern of its score, and the ordered map from
(sort key, field) to member bytes. -/
structure ZSet where
  scores : List (String × Nat)
  entries : List ZEntry
deriving DecidableEq, Repr

/-- The tagged values held by the in-memory backend's top-level map: scalar,
set, hash or sorted hash. -/
inductive StoreVal where
  | str (s : String)
  | set (members : List String)
  | hash (fields : List (String × String))
  | zset (z : ZSet)
deriving DecidableEq, Repr

/-- The in-memory backend state: the top-level map from key to tagged value. -/
def MemState : Type := List (String × StoreVal)

instance : DecidableEq MemState := by unfold MemState; infer_instance

/-- Modelled from the spec: `keyvaluestore.ToString` (its definition is not
among the provided sources; only callers are).  The spec canonicalizes byte
strings, text and integers to byte strings, so scalar values are stored here
already in canonical form and `ToString` is the identity on them; container
values have no canonical scalar form and yield `none`. -/
def toStringVal : StoreVal → Option String
  | .str s => some s
  | _ => none

/-- `Backend.get`: look the key up and canonicalize the value. -/
def bGet (st : MemState) (k : String) : Option String :=
  match alGet k st with
  | some v => toStringVal v
  | none => none

/-- `Backend.set`. -/
def bSet (st : MemState) (k : String) (v : String) : MemState :=
  alSet k (.str v) st

/-- `Backend.delete`: reports whether the key existed and removes it. -/
def bDelete (st : MemState) (k : String) : Bool × MemState :=
  ((alGet k st).isSome, alErase k st)

/-- `strconv.ParseInt(s, 10, 64)`: an optional sign followed by at least one
decimal digit, with the value required to fit in a signed 64-bit integer. -/
def parseInt64 (s : String) : Option Int :=
  match s.data with
  | [] => none
  | c :: rest =>
    let neg : Bool := c = '-'
    let digits : List Char := if c = '-' ∨ c = '+' then rest else c :: rest
    if digits = [] then none
    else if digits.all (fun d => '0' ≤ d && d ≤ '9') then
      let v : Nat := digits.foldl (fun a d => a * 10 + (d.toNat - '0'.toNat)) 0
      if neg then (if v ≤ 2 ^ 63 then some (-(v : Int)) else none)
      else (if v < 2 ^ 63 then some (v : Int) else none)
    else none

/-- `strconv.FormatInt(i, 10)`: canonical decimal text of an integer. -/
def formatInt64 (i : Int) : String := toString i

/-- Reduction of an integer into the signed 64-bit range, the wrap-around of
Go `int64` addition. -/
def wrapI64 (x : Int) : Int := (x + 2 ^ 63) % 2 ^ 64 - 2 ^ 63

/-- `Backend.incrBy`: parse the current scalar as a signed 64-bit decimal and
add to it; a present scalar that does not parse is the only error path of the
whole in-memory backend.  A key holding a container has no canonical scalar
form and is overwritten by the seed value, as is an absent key. -/
def bIncrBy (st : MemState) (k : String) (n : Int) : Except String Int × MemState :=
  match alGet k st with
  | some v =>
    match toStringVal v with
    | some s =>
      match parseInt64 s with
      | none => (.error "invalid integer", st)
      | some i => (.ok (wrapI64 (i + n)), alSet k (.str (formatInt64 (wrapI64 (i + n)))) st)
    | none => (.ok n, alSet k (.str (formatInt64 n)) st)
  | none => (.ok n, alSet k (.str (formatInt64 n)) st)

/-- Insertion into the member list of a set value (Go map key insert; list
order models the unordered map). -/
def sInsert (m : String) (l : List String) : List String :=
  if l.contains m then l else l ++ [m]

/-- `Backend.sadd`: any non-set value at the key is replaced by a fresh set. -/
def bSAdd (st : MemState) (k : String) (m : String) (ms : List String) : MemState :=
  let s := match alGet k st with
    | some (.set l) => l
    | _ => []
  alSet k (.set ((m :: ms).foldl (fun acc x => sInsert x acc) s)) st

/-- `Backend.srem`: a no-op unless the key holds a set; removing the last
member deletes the key. -/
def bSRem (st : MemState) (k : String) (m : String) (ms : List String) : MemState :=
  match alGet k st with
  | some (.set l) =>
    let l := (m :: ms).foldl (fun acc x => acc.filter (fun y => !(y == x))) l
    if l.isEmpty then alErase k st else alSet k (.set l) st
  | _ => st

/-- `Backend.hset`: any non-hash value at the key is replaced by a fresh hash. -/
def bHSet (st : MemState) (k : String) (f v : String) (fs : List (String × String)) : MemState :=
  let h := match alGet k st with
    | some (.hash l) => l
    | _ => []
  alSet k (.hash (fs.foldl (fun acc p => alSet p.1 p.2 acc) (alSet f v h))) st

/-- `Backend.hdel`: a no-op unless the key holds a hash; removing the last
field deletes the key. -/
def bHDel (st : MemState) (k : String) (f : String) (fs : List String) : MemState :=
  match alGet k st with
  | some (.hash l) =>
    let l := (f :: fs).foldl (fun acc x => alErase x acc) l
    if l.isEmpty then alErase k st else alSet k (.hash l) st
  | _ => st

/-- `Backend.hget` (via `hgetall`): `none` unless the key holds a hash with
the field present. -/
def bHGet (st : MemState) (k : String) (f : String) : Option String :=
  match alGet k st with
  | some (.hash l) => alGet f l
  | _ => none

/-- `Backend.zhadd`: any non-sorted-hash value at the key is replaced by a
fresh sorted hash; an existing entry for the field is removed from the
ordered map before the new score is computed and both indexes are updated.
The score callback `f` receives the previous score's bit pattern; the two
callbacks in the source (`ZHAdd`, `ZIncrBy`) never fail, so the callback's
error channel is dropped. -/
def zhadd (st : MemState) (k : String) (f : String) (m : String)
    (fscore : Option Nat → Nat) : MemState :=
  let z := match alGet k st with
    | some (.zset z) => z
    | _ => ⟨[], []⟩
  let prev := alGet f z.scores
  let z := match prev with
    | some p => { z with entries := omErase (floatSortKeyBits p) f z.entries }
    | none => z
  let ns := fscore prev
  alSet k (.zset ⟨alSet f ns z.scores, omInsert ⟨floatSortKeyBits ns, f, m⟩ z.entries⟩) st

/-- `Backend.zscore`: the stored score bit pattern of a member. -/
def zscoreSt (st : MemState) (k : String) (m : String) : Option Nat :=
  match alGet k st with
  | some (.zset z) => alGet m z.scores
  | _ => none

/-- `Backend.zhrem`: remove the field from both indexes.  Note the source
stores the sorted hash back even when it has become empty: the key is never
deleted here. -/
def bZHRem (st : MemState) (k : String) (f : String) : MemState :=
  match alGet k st with
  | some (.zset z) =>
    match alGet f z.scores with
    | some p => alSet k (.zset ⟨alErase f z.scores, omErase (floatSortKeyBits p) f z.entries⟩) st
    | none => st
  | _ => st

/-- The forward cursor walk of `zRangeByScoreWithScores`: starting from the
first entry at or above the minimum sort key, collect `(score, member)` pairs
while the 8-byte sort-key portion of the entry key is at most the maximum
sort key, stopping once `limit` results have been collected (`limit = 0`
meaning no limit).  `cnt` is the number of results already collected. -/
def zScanFwd (maxKey limit : Nat) : Nat → List ZEntry → List (Nat × String)
  | _, [] => []
  | cnt, e :: rest =>
    if (limit = 0 ∨ cnt < limit) ∧ e.skey ≤ maxKey then
      (sortKeyFloatBits e.skey, e.value) :: zScanFwd maxKey limit (cnt + 1) rest
    else []

/-- The backward cursor walk of `zRevRangeByScoreWithScores` over the
descending entry list: collect while the entry key is at least the minimum
sort key. -/
def zScanBwd (minKey limit : Nat) : Nat → List ZEntry → List (Nat × String)
  | _, [] => []
  | cnt, e :: rest =>
    if (limit = 0 ∨ cnt < limit) ∧ minKey ≤ e.skey then
      (sortKeyFloatBits e.skey, e.value) :: zScanBwd minKey limit (cnt + 1) rest
    else []

/-- `Backend.zRangeByScoreWithScores` on a sorted entry list.  The source
positions the cursor with `MaxBefore(minSortKey)` followed by `Next` — the
first entry whose flat key is at least the bare 8-byte minimum sort key —
which on an ascending entry list is the suffix remaining after dropping the
entries below the minimum sort key. -/
def zRangeByScoreEntries (entries : List ZEntry) (smin smax : Nat) (limit : Nat) :
    List (Nat × String) :=
  zScanFwd (floatSortKeyBits smax) limit 0
    (entries.dropWhile (fun e => decide (e.skey < floatSortKeyBits smin)))

/-- `Backend.zRevRangeByScoreWithScores` on a sorted entry list.  The cursor
starts at `Max` when `sortKeyAfter` overflowed (empty string), otherwise at
`MaxBefore(sortKeyAfter(max))` — the last entry whose sort key is at most the
maximum sort key — and walks backward. -/
def zRevRangeByScoreEntries (entries : List ZEntry) (smin smax : Nat) (limit : Nat) :
    List (Nat × String) :=
  let start := match floatSortKeyAfterBits smax with
    | none => entries.reverse
    | some k => entries.reverse.dropWhile (fun e => decide (k ≤ e.skey))
  zScanBwd (floatSortKeyBits smin) limit 0 start

/-- `Backend.zRangeByScoreWithScores` on a backend state: `nil` unless the
key holds a sorted hash. -/
def bZRangeByScore (st : MemState) (k : String) (smin smax : Nat) (limit : Nat) :
    List (Nat × String) :=
  match alGet k st with
  | some (.zset z) => zRangeByScoreEntries z.entries smin smax limit
  | _ => []

/-- `Backend.zRevRangeByScoreWithScores` on a backend state. -/
def bZRevRangeByScore (st : MemState) (k : String) (smin smax : Nat) (limit : Nat) :
    List (Nat × String) :=
  match alGet k st with
  | some (.zset z) => zRevRangeByScoreEntries z.entries smin smax limit
  | _ => []

/-- The collection loop of `Backend.ZRevRangeByLex`: walk the descending
entry list, stopping at the `min` bound (`-` is no bound, `(` is exclusive,
`[` is inclusive) or once `limit` results were collected.  The `lex` value of
an entry is its flat key with the first 8 bytes removed, i.e. its field. -/
def zRevLexLoop (minS : String) (limit : Nat) : Nat → List ZEntry → List String
  | _, [] => []
  | cnt, e :: rest =>
    if limit = 0 ∨ cnt < limit then
      if minS ≠ "-" ∧ (e.field.data < (minS.drop 1).data ∨ (minS.take 1 = "(" ∧ e.field = minS.drop 1)) then []
      else e.value :: zRevLexLoop minS limit (cnt + 1) rest
    else []

/-- The start-cursor computation of `Backend.ZRevRangeByLex`, returned as the
descending entry list beginning at the cursor.  For `max = "+"` the cursor is
`Max`; otherwise it is `MaxBefore(sortKeyPrefix + max[1:])` where
`sortKeyPrefix` is the 8-byte sort key of score `0.0`, adjusted for an
inclusive `[` bound: if no entry is strictly below the bound, the minimum
entry is taken when its lex part equals `min[1:]` — the source compares
against the `min` parameter here rather than `max` — and otherwise the
successor of the cursor is taken when its lex part equals `max[1:]`. -/
def zRevLexStart (entries : List ZEntry) (minS maxS : String) : List ZEntry :=
  let rev := entries.reverse
  if maxS = "+" then rev
  else
    let tgt : Nat × String := (floatSortKeyBits 0, maxS.drop 1)
    let cut := rev.dropWhile (fun e => !zkeyLtB (e.skey, e.field) tgt)
    if maxS.take 1 = "[" then
      if cut.isEmpty then
        match entries.head? with
        | some x => if x.field = minS.drop 1 then [x] else []
        | none => []
      else
        let i := rev.length - cut.length
        if 1 ≤ i then
          match rev.get? (i - 1) with
          | some x => if x.field = maxS.drop 1 then rev.drop (i - 1) else cut
          | none => cut
        else cut
    else cut

/-- `Backend.ZRevRangeByLex`: `nil` unless the key holds a sorted hash. -/
def bZRevRangeByLex (st : MemState) (k : String) (minS maxS : String) (limit : Nat) :
    List String :=
  match alGet k st with
  | some (.zset z) => zRevLexLoop minS limit 0 (zRevLexStart z.entries minS maxS)
  | _ => []

/-- The sub-operations that can be staged on the in-memory backend's
`AtomicWriteOperation`.  Values and members appear in canonical string form;
scores are `float64` bit patterns. -/
inductive SubOp where
  | setK (k v : String)
  | setNX (k v : String)
  | setXX (k v : String)
  | setEQ (k v old : String)
  | del (k : String)
  | delXX (k : String)
  | nIncrBy (k : String) (n : Int)
  | zAdd (k m : String) (s : Nat)
  | zhAdd (k f m : String) (s : Nat)
  | zAddNX (k m : String) (s : Nat)
  | zRem (k m : String)
  | zhRem (k f : String)
  | sAdd (k m : String) (ms : List String)
  | sRem (k m : String) (ms : List String)
  | hSet (k f v : String) (fs : List (String × String))
  | hSetNX (k f v : String)
  | hDel (k f : String) (fs : List String)
deriving DecidableEq, Repr

/-- The condition each staged sub-operation registers, if any: a pure
predicate over the pre-commit backend state. -/
def condOf : SubOp → Option (MemState → Bool)
  | .setNX k _ => some (fun st => (bGet st k).isNone)
  | .setXX k _ => some (fun st => (bGet st k).isSome)
  | .setEQ k _ old => some (fun st => match bGet st k with
      | some s => s == old
      | none => false)
  | .delXX k => some (fun st => (bGet st k).isSome)
  | .zAddNX k m _ => some (fun st => (zscoreSt st k m).isNone)
  | .hSetNX k f _ => some (fun st => (bHGet st k f).isNone)
  | _ => none

/-- The write action each staged sub-operation registers.  The `ZAdd` family
delegates to `zhadd` with the member as field; `NIncrBy` discards the
increment's result. -/
def writeOf : SubOp → MemState → MemState
  | .setK k v => fun st => bSet st k v
  | .setNX k v => fun st => bSet st k v
  | .setXX k v => fun st => bSet st k v
  | .setEQ k v _ => fun st => bSet st k v
  | .del k => fun st => (bDelete st k).2
  | .delXX k => fun st => (bDelete st k).2
  | .nIncrBy k n => fun st => (bIncrBy st k n).2
  | .zAdd k m s => fun st => zhadd st k m m (fun _ => s)
  | .zhAdd k f m s => fun st => zhadd st k f m (fun _ => s)
  | .zAddNX k m s => fun st => zhadd st k m m (fun _ => s)
  | .zRem k m => fun st => bZHRem st k m
  | .zhRem k f => fun st => bZHRem st k f
  | .sAdd k m ms => fun st => bSAdd st k m ms
  | .sRem k m ms => fun st => bSRem st k m ms
  | .hSet k f v fs => fun st => bHSet st k f v fs
  | .hSetNX k f v => fun st => bHSet st k f v []
  | .hDel k f fs => fun st => bHDel st k f fs

/-- `keyvaluestore.MaxAtomicWriteOperations`. -/
def maxAtomicWriteOperations : Nat := 25

/-- The condition loop of `AtomicWriteOperation.Exec`: evaluate every
registered condition against the pre-commit state, recording each
sub-operation's `conditionPassed` flag (`true` when no condition is
registered) and whether all passed. -/
def evalConds (st : MemState) : List SubOp → List Bool × Bool
  | [] => ([], true)
  | op :: rest =>
    let pass := match condOf op with
      | none => true
      | some c => c st
    let r := evalConds st rest
    (pass :: r.1, pass && r.2)

/-- `AtomicWriteOperation.Exec`: fail fast when more than 25 sub-operations
are staged (all `conditionPassed` flags still unset); otherwise evaluate all
conditions against the pre-commit state, and either report `false` leaving
the state untouched, or apply every write in submission order and report
`true`.  The result is `(error or committed, post state, conditionPassed
flags)`; a handle's `ConditionalFailed()` is the negation of its flag. -/
def execTx (ops : List SubOp) (st : MemState) : Except String Bool × MemState × List Bool :=
  if ops.length > maxAtomicWriteOperations then
    (.error "max operation count exceeded", st, ops.map fun _ => false)
  else
    let r := evalConds st ops
    if r.2 then (.ok true, ops.foldl (fun s o => writeOf o s) st, r.1)
    else (.ok false, st, r.1)

/-- The submission methods of the invalidator decorator's transaction, each
recording the key it touches and delegating the sub-operation to the wrapped
backend's transaction. -/
inductive InvCall where
  | setK (k v : String)
  | setNX (k v : String)
  | setXX (k v : String)
  | setEQ (k v old : String)
  | del (k : String)
  | delXX (k : String)
  | incrBy (k : String) (n : Int)
  | zAdd (k m : String) (s : Nat)
  | zhAdd (k f m : String) (s : Nat)
  | zAddNX (k m : String) (s : Nat)
  | zRem (k m : String)
  | zhRem (k f : String)
  | sAdd (k m : String) (ms : List String)
  | sRem (k m : String) (ms : List String)
  | hSet (k f v : String) (fs : List (String × String))
  | hSetNX (k f v : String)
  | hDel (k f : String) (fs : List String)
deriving DecidableEq, Repr

/-- The key referenced by an invalidator transaction submission. -/
def callKey : InvCall → String
  | .setK k _ => k
  | .setNX k _ => k
  | .setXX k _ => k
  | .setEQ k _ _ => k
  | .del k => k
  | .delXX k => k
  | .incrBy k _ => k
  | .zAdd k _ _ => k
  | .zhAdd k _ _ _ => k
  | .zAddNX k _ _ => k
  | .zRem k _ => k
  | .zhRem k _ => k
  | .sAdd k _ _ => k
  | .sRem k _ _ => k
  | .hSet k _ _ _ => k
  | .hSetNX k _ _ => k
  | .hDel k _ _ => k

/-- The sub-operation an invalidator transaction submission forwards to the
wrapped backend's transaction (here the in-memory backend). -/
def callSub : InvCall → SubOp
  | .setK k v => .setK k v
  | .setNX k v => .setNX k v
  | .setXX k v => .setXX k v
  | .setEQ k v old => .setEQ k v old
  | .del k => .del k
  | .delXX k => .delXX k
  | .incrBy k n => .nIncrBy k n
  | .zAdd k m s => .zAdd k m s
  | .zhAdd k f m s => .zhAdd k f m s
  | .zAddNX k m s => .zAddNX k m s
  | .zRem k m => .zRem k m
  | .zhRem k f => .zhRem k f
  | .sAdd k m ms => .sAdd k m ms
  | .sRem k m ms => .sRem k m ms
  | .hSet k f v fs => .hSet k f v fs
  | .hSetNX k f v => .hSetNX k f v
  | .hDel k f fs => .hDel k f fs

/-- The invalidator's `atomicWriteOperation` state: the accumulated
`invalidations` key list and the staged sub-operations of the wrapped
transaction. -/
structure InvTx where
  invalidations : List String
  inner : List SubOp
deriving DecidableEq, Repr

/-- One submission on the invalidator transaction: append the key to
`invalidations` and forward the sub-operation. -/
def invApply (tx : InvTx) (c : InvCall) : InvTx :=
  ⟨tx.invalidations ++ [callKey c], tx.inner ++ [callSub c]⟩

/-- A transaction built by a sequence of submissions on a fresh invalidator
transaction. -/
def invBuild (calls : List InvCall) : InvTx :=
  calls.foldl invApply ⟨[], []⟩

/-- The invalidator transaction's `Exec`: run the wrapped transaction's
`Exec`, then — regardless of its outcome — call the `Invalidate` callback on
every recorded key.  The second component is the sequence of keys passed to
the callback, in order. -/
def invExec (tx : InvTx) (st : MemState) :
    (Except String Bool × MemState × List Bool) × List String :=
  (execTx tx.inner st, tx.invalidations)

/-- Cache entries of the read cache needed by the claims: a memoized `Get`
result, or the sorted-hash sub-entry table keyed by `(opTag, minKey, maxKey)`
(the source builds this sub-key via the injective length-prefixed
`concatKeys` on the operation tag and the raw 8-byte score bit patterns). -/
inductive CacheEntry where
  | getE (value : Option String)
  | zE (sub : List ((String × Nat × Nat) × (List (Nat × String) × Nat)))
deriving DecidableEq, Repr

/-- A cached sorted-hash range sub-entry: the memoized members and the limit
they were fetched with.  The error component of the source's entry is omitted:
the wrapped in-memory backend never produces one. -/
def ZRangeEntry : Type := List (Nat × String) × Nat

/-- The read cache joint state: the strong cache plane, the
eventually-consistent cache plane, and the wrapped in-memory backend state.
Derived eventually-consistent views share both planes, so a view is the pair
of this state with the `eventuallyConsistentReads` flag. -/
structure RCState where
  strong : List (String × CacheEntry)
  ec : List (String × CacheEntry)
  inner : MemState
deriving DecidableEq

/-- `ReadCache.load`: read the plane selected by the
`eventuallyConsistentReads` flag `g`. -/
def rcLoad (rc : RCState) (g : Bool) (k : String) : Option CacheEntry :=
  alGet k (if g then rc.ec else rc.strong)

/-- `ReadCache.store`: write the plane selected by the flag `g`. -/
def rcStore (rc : RCState) (g : Bool) (k : String) (e : CacheEntry) : RCState :=
  if g then { rc with ec := alSet k e rc.ec } else { rc with strong := alSet k e rc.strong }

/-- `ReadCache.Invalidate`: delete the key from the strong cache plane (and
from it alone). -/
def rcInvalidate (rc : RCState) (k : String) : RCState :=
  { rc with strong := alErase k rc.strong }

/-- `ReadCache.Get`: serve a memoized `Get` entry from the selected plane, or
consult the inner store and memoize the result (an entry of a different kind
is overwritten). -/
def rcGet (rc : RCState) (g : Bool) (k : String) : Option String × RCState :=
  match rcLoad rc g k with
  | some (.getE v) => (v, rc)
  | _ =>
    let v := bGet rc.inner k
    (v, rcStore rc g k (.getE v))

/-- `ReadCache.Set`: write through to the inner store, then invalidate. -/
def rcSet (rc : RCState) (k v : String) : RCState :=
  rcInvalidate { rc with inner := bSet rc.inner k v } k

/-- `ReadCache.Delete`. -/
def rcDelete (rc : RCState) (k : String) : Bool × RCState :=
  let r := bDelete rc.inner k
  (r.1, rcInvalidate { rc with inner := r.2 } k)

/-- `ReadCache.IncrBy`. -/
def rcIncrBy (rc : RCState) (k : String) (n : Int) : Except String Int × RCState :=
  let r := bIncrBy rc.inner k n
  (r.1, rcInvalidate { rc with inner := r.2 } k)

/-- `ReadCache.SAdd`. -/
def rcSAdd (rc : RCState) (k m : String) (ms : List String) : RCState :=
  rcInvalidate { rc with inner := bSAdd rc.inner k m ms } k

/-- `ReadCache.SRem`. -/
def rcSRem (rc : RCState) (k m : String) (ms : List String) : RCState :=
  rcInvalidate { rc with inner := bSRem rc.inner k m ms } k

/-- `ReadCache.HSet`. -/
def rcHSet (rc : RCState) (k f v : String) (fs : List (String × String)) : RCState :=
  rcInvalidate { rc with inner := bHSet rc.inner k f v fs } k

/-- `ReadCache.HDel`. -/
def rcHDel (rc : RCState) (k f : String) (fs : List String) : RCState :=
  rcInvalidate { rc with inner := bHDel rc.inner k f fs } k

/-- `ReadCache.ZAdd` (the backend stores the member under its own name). -/
def rcZAdd (rc : RCState) (k m : String) (s : Nat) : RCState :=
  rcInvalidate { rc with inner := zhadd rc.inner k m m (fun _ => s) } k

/-- `ReadCache.ZHAdd`. -/
def rcZHAdd (rc : RCState) (k f m : String) (s : Nat) : RCState :=
  rcInvalidate { rc with inner := zhadd rc.inner k f m (fun _ => s) } k

/-- `ReadCache.ZRem`. -/
def rcZRem (rc : RCState) (k m : String) : RCState :=
  rcInvalidate { rc with inner := bZHRem rc.inner k m } k

/-- `ReadCache.ZHRem`. -/
def rcZHRem (rc : RCState) (k f : String) : RCState :=
  rcInvalidate { rc with inner := bZHRem rc.inner k f } k

/-- `ReadCache.ZIncrBy`: the inner backend adds the increment to the previous
score with `float64` addition, which is left abstract as `fadd` (bit patterns
of the previous score and of the increment to bit pattern of the sum). -/
def rcZIncrBy (rc : RCState) (k m : String) (n : Nat) (fadd : Nat → Nat → Nat) : RCState :=
  rcInvalidate
    { rc with inner := zhadd rc.inner k m m (fun prev => match prev with
        | some p => fadd p n
        | none => n) } k

/-- `Exec` of a transaction obtained from `ReadCache.AtomicWrite`: the
invalidator decorator runs the inner transaction and then calls
`ReadCache.Invalidate` on every recorded key. -/
def rcTxExec (rc : RCState) (calls : List InvCall) :
    (Except String Bool × List Bool) × RCState :=
  let tx := invBuild calls
  let r := execTx tx.inner rc.inner
  ((r.1, r.2.2), tx.invalidations.foldl rcInvalidate { rc with inner := r.2.1 })

/-- `ReadCache.zRangeByScoreWithScores` (shared by the `Z` and `ZH` variants,
whose inner calls coincide on the in-memory backend): serve the memoized
members when a sub-entry exists for `(opTag, minKey, maxKey)` whose recorded
limit is at least the requested one, otherwise consult the inner backend and
memoize the result together with the requested limit. -/
def rcZRangeByScore (rc : RCState) (g : Bool) (k : String) (smin smax : Nat)
    (limit : Nat) : List (Nat × String) × RCState :=
  let subkey : String × Nat × Nat := ("zrbs", smin, smax)
  let sub := match rcLoad rc g k with
    | some (.zE s) => s
    | _ => []
  match alGet subkey sub with
  | some entry =>
    if limit ≤ entry.2 then (entry.1, rc)
    else
      let members := bZRangeByScore rc.inner k smin smax limit
      (members, rcStore rc g k (.zE (alSet subkey (members, limit) sub)))
  | none =>
    let members := bZRangeByScore rc.inner k smin smax limit
    (members, rcStore rc g k (.zE (alSet subkey (members, limit) sub)))

/-- The `conditionPassed` flag a sub-operation receives when its condition is
evaluated against a state (`true` when no condition is registered). -/
def passOf (st : MemState) (o : SubOp) : Bool :=
  match condOf o with
  | none => true
  | some c => c st

/-- The `(score bit pattern, member)` pair a range scan reports for an entry:
the score is decoded from the first 8 bytes of the entry key. -/
def entSM (e : ZEntry) : Nat × String := (sortKeyFloatBits e.skey, e.value)

/-- Truncation to a result limit, `0` meaning no limit. -/
def limitTake {α : Type} (limit : Nat) (l : List α) : List α :=
  if limit = 0 then l else l.take limit

theorem floatSortKeyBits_lt_w64 {n : Nat} (h : n < w64) : floatSortKeyBits n < w64 := by
  unfold floatSortKeyBits signMask w64 at *
  split <;> omega

theorem sortKeyFloatBits_lt_w64 {m : Nat} (h : m < w64) : sortKeyFloatBits m < w64 := by
  unfold sortKeyFloatBits signMask w64 at *
  split <;> omega

theorem sortKeyFloatBits_floatSortKeyBits {n : Nat} (h : n < w64) :
    sortKeyFloatBits (floatSortKeyBits n) = n := by
  unfold sortKeyFloatBits floatSortKeyBits signMask w64 at *
  split <;> split <;> omega

theorem floatSortKeyBits_sortKeyFloatBits {m : Nat} (h : m < w64) :
    floatSortKeyBits (sortKeyFloatBits m) = m := by
  unfold sortKeyFloatBits floatSortKeyBits signMask w64 at *
  split <;> split <;> omega

theorem totLe_iff_key_le {a b : Nat} (ha : a < w64) (hb : b < w64) :
    totLe a b ↔ floatSortKeyBits a ≤ floatSortKeyBits b := by
  unfold totLe floatSortKeyBits signMask w64 at *
  split <;> split <;> simp <;> omega

theorem ieeeLe_iff_totLe {a b : Nat} (ha : a < w64) (hb : b < w64) :
    ieeeLe a b ↔ (totLe a b ∨ (a = 0 ∧ b = signMask)) := by
  unfold ieeeLe totLe signMask w64 at *
  split <;> split <;> simp <;> omega

theorem totLe_total (a b : Nat) : totLe a b ∨ totLe b a := by
  unfold totLe
  split_ifs <;> first | omega | tauto

theorem le_iff_divmod {c n m : Nat} (hc : 0 < c) :
    n ≤ m ↔ (n / c < m / c ∨ (n / c = m / c ∧ n % c ≤ m % c)) := by
  constructor
  · intro h
    rcases Nat.lt_or_ge (n / c) (m / c) with h1 | h1
    · exact Or.inl h1
    have h3 : n / c ≤ m / c := Nat.div_le_div_right h
    have h4 : n / c = m / c := le_antisymm h3 h1
    refine Or.inr ⟨h4, ?_⟩
    have e1 := Nat.div_add_mod n c
    have e2 := Nat.div_add_mod m c
    rw [h4] at e1
    omega
  · intro h
    rcases h with h1 | ⟨h1, h2⟩
    · have e1 := Nat.div_add_mod n c
      have e2 := Nat.div_add_mod m c
      have e3 : n % c < c := Nat.mod_lt n hc
      have e4 : c * (n / c + 1) ≤ c * (m / c) := Nat.mul_le_mul_left c h1
      have e5 : c * (n / c + 1) = c * (n / c) + c := by ring
      omega
    · have e1 := Nat.div_add_mod n c
      have e2 := Nat.div_add_mod m c
      rw [h1] at e1
      omega

theorem beBytes_length : ∀ (w n : Nat), (beBytes w n).length = w := by
  intro w
  induction w with
  | zero => intro n; rfl
  | succ w ih => intro n; simp [beBytes, ih]

theorem bytesLe_beBytes : ∀ (w n m : Nat), n < 256 ^ w → m < 256 ^ w →
    (bytesLe (beBytes w n) (beBytes w m) = true ↔ n ≤ m) := by
  intro w
  induction w with
  | zero =>
    intro n m hn hm
    simp [beBytes, bytesLe]
    omega
  | succ w ih =>
    intro n m hn hm
    have hc : 0 < 256 ^ w := Nat.pos_pow_of_pos w (by norm_num)
    have hn' : n % 256 ^ w < 256 ^ w := Nat.mod_lt n hc
    have hm' : m % 256 ^ w < 256 ^ w := Nat.mod_lt m hc
    have hiff := ih (n % 256 ^ w) (m % 256 ^ w) hn' hm'
    simp only [beBytes, bytesLe, Bool.or_eq_true, Bool.and_eq_true, beq_iff_eq,
      decide_eq_true_eq]
    rw [hiff]
    exact (le_iff_divmod hc).symm

/-- Claim C3 (counterexample): the sort keys do not reproduce IEEE-754 `<=`
on the pair `(+0.0, -0.0)`: both values are non-NaN and `+0.0 <= -0.0` holds
(the two zeros compare equal), yet the sort key of `+0.0` is bytewise
strictly greater than the sort key of `-0.0`. -/
theorem c3_counterexample :
    ¬ IsNaN 0 ∧ ¬ IsNaN signMask ∧ ieeeLe 0 signMask ∧
      bytesLe (floatSortKeyStr 0) (floatSortKeyStr signMask) = false := by
  decide

/-- Claim C3 (amended): for all non-NaN `float64` bit patterns `a` and `b`,
`floatSortKey` produces fixed-width 8-byte strings; their bytewise
lexicographic order is total and realizes the sign/magnitude total order
`totLe`, which agrees with IEEE-754 `<=` on non-NaN inputs — including ±∞ —
except at the single pair `(+0.0, -0.0)`: IEEE compares the two zeros equal
while the sort keys order `-0.0` strictly before `+0.0`. -/
theorem c3_theorem (a b : Nat) (ha : a < w64) (hb : b < w64)
    (_hna : ¬ IsNaN a) (_hnb : ¬ IsNaN b) :
    (floatSortKeyStr a).length = 8
    ∧ (bytesLe (floatSortKeyStr a) (floatSortKeyStr b) = true ↔ totLe a b)
    ∧ (totLe a b ∨ totLe b a)
    ∧ (ieeeLe a b ↔ (totLe a b ∨ (a = 0 ∧ b = signMask))) := by
  have ha' : floatSortKeyBits a < 256 ^ 8 := by
    have := floatSortKeyBits_lt_w64 ha
    unfold w64 at this
    norm_num at this ⊢
    omega
  have hb' : floatSortKeyBits b < 256 ^ 8 := by
    have := floatSortKeyBits_lt_w64 hb
    unfold w64 at this
    norm_num at this ⊢
    omega
  refine ⟨beBytes_length 8 _, ?_, totLe_total a b, ieeeLe_iff_totLe ha hb⟩
  rw [floatSortKeyStr, floatSortKeyStr, bytesLe_beBytes 8 _ _ ha' hb']
  exact (totLe_iff_key_le ha hb).symm

/-- Claim C3 (witness): the amended statement at the concrete non-NaN pair
`+0.0` (pattern 0) and `2.0` (pattern `2 ^ 62`). -/
theorem c3_witness :
    (floatSortKeyStr 0).length = 8
    ∧ (bytesLe (floatSortKeyStr 0) (floatSortKeyStr (2 ^ 62)) = true ↔ totLe 0 (2 ^ 62))
    ∧ (totLe 0 (2 ^ 62) ∨ totLe (2 ^ 62) 0)
    ∧ (ieeeLe 0 (2 ^ 62) ↔ (totLe 0 (2 ^ 62) ∨ (0 = 0 ∧ 2 ^ 62 = signMask))) :=
  c3_theorem 0 (2 ^ 62) (by decide) (by decide) (by decide) (by decide)

theorem dropWhile_eq_filter_not {α : Type} {R : α → α → Prop} {q : α → Bool} :
    ∀ {l : List α}, l.Pairwise R → (∀ a b, R a b → q a = false → q b = false) →
    l.dropWhile q = l.filter (fun x => !q x) := by
  intro l
  induction l with
  | nil => intro _ _; rfl
  | cons x xs ih =>
    intro hp hq
    rcases List.pairwise_cons.mp hp with ⟨hx, hxs⟩
    cases hqx : q x with
    | true => simp [List.dropWhile_cons, List.filter_cons, hqx, ih hxs hq]
    | false =>
      have hall : ∀ a ∈ xs, (!q a) = true := by
        intro a ha
        have := hq x a (hx a ha) hqx
        simp [this]
      simp [List.dropWhile_cons, List.filter_cons, hqx, List.filter_eq_self.mpr hall]

theorem takeWhile_eq_filter {α : Type} {R : α → α → Prop} {q : α → Bool} :
    ∀ {l : List α}, l.Pairwise R → (∀ a b, R a b → q a = false → q b = false) →
    l.takeWhile q = l.filter q := by
  intro l
  induction l with
  | nil => intro _ _; rfl
  | cons x xs ih =>
    intro hp hq
    rcases List.pairwise_cons.mp hp with ⟨hx, hxs⟩
    cases hqx : q x with
    | true => simp [List.takeWhile_cons, List.filter_cons, hqx, ih hxs hq]
    | false =>
      have hall : ∀ a ∈ xs, q a = false := fun a ha => hq x a (hx a ha) hqx
      have : xs.filter q = [] := by
        rw [List.filter_congr (q := fun _ => false) (fun a ha => hall a ha), List.filter_false]
      simp [List.takeWhile_cons, List.filter_cons, hqx, this]

theorem zScanFwd_eq (maxKey limit : Nat) : ∀ (l : List ZEntry) (cnt : Nat),
    zScanFwd maxKey limit cnt l =
      (if limit = 0 then (l.takeWhile (fun e => decide (e.skey ≤ maxKey))).map entSM
       else ((l.takeWhile (fun e => decide (e.skey ≤ maxKey))).map entSM).take (limit - cnt)) := by
  intro l
  induction l with
  | nil => intro cnt; simp [zScanFwd]
  | cons e rest ih =>
    intro cnt
    by_cases h1 : e.skey ≤ maxKey
    · by_cases h2 : limit = 0
      · subst h2
        simp [zScanFwd, h1, List.takeWhile_cons, ih (cnt + 1), entSM]
      · by_cases h3 : cnt < limit
        · have h4 : limit - cnt = (limit - (cnt + 1)) + 1 := by omega
          simp [zScanFwd, h1, h2, h3, List.takeWhile_cons, ih (cnt + 1), entSM, h4]
        · have h4 : limit - cnt = 0 := by omega
          simp [zScanFwd, h1, h2, h3, h4, List.takeWhile_cons]
    · simp [zScanFwd, h1, List.takeWhile_cons]

theorem zScanBwd_eq (minKey limit : Nat) : ∀ (l : List ZEntry) (cnt : Nat),
    zScanBwd minKey limit cnt l =
      (if limit = 0 then (l.takeWhile (fun e => decide (minKey ≤ e.skey))).map entSM
       else ((l.takeWhile (fun e => decide (minKey ≤ e.skey))).map entSM).take (limit - cnt)) := by
  intro l
  induction l with
  | nil => intro cnt; simp [zScanBwd]
  | cons e rest ih =>
    intro cnt
    by_cases h1 : minKey ≤ e.skey
    · by_cases h2 : limit = 0
      · subst h2
        simp [zScanBwd, h1, List.takeWhile_cons, ih (cnt + 1), entSM]
      · by_cases h3 : cnt < limit
        · have h4 : limit - cnt = (limit - (cnt + 1)) + 1 := by omega
          simp [zScanBwd, h1, h2, h3, List.takeWhile_cons, ih (cnt + 1), entSM, h4]
        · have h4 : limit - cnt = 0 := by omega
          simp [zScanBwd, h1, h2, h3, h4, List.takeWhile_cons]
    · simp [zScanBwd, h1, List.takeWhile_cons]

theorem zRangeByScoreEntries_spec (entries : List ZEntry) (smin smax limit : Nat)
    (hs : entries.Pairwise (fun a b => a.skey ≤ b.skey)) :
    zRangeByScoreEntries entries smin smax limit =
      limitTake limit ((entries.filter (fun e =>
        decide (floatSortKeyBits smin ≤ e.skey) &&
        decide (e.skey ≤ floatSortKeyBits smax))).map entSM) := by
  unfold zRangeByScoreEntries
  rw [dropWhile_eq_filter_not hs (by
    intro a b hr hq
    simp only [decide_eq_false_iff_not, Nat.not_lt] at hq ⊢
    omega)]
  rw [zScanFwd_eq]
  have hp2 : (entries.filter fun e => !decide (e.skey < floatSortKeyBits smin)).Pairwise
      (fun a b => a.skey ≤ b.skey) := hs.filter _
  rw [takeWhile_eq_filter hp2 (by
    intro a b hr hq
    simp only [decide_eq_false_iff_not, Nat.not_le] at hq ⊢
    omega)]
  rw [List.filter_filter]
  rw [List.filter_congr (q := fun e =>
    decide (floatSortKeyBits smin ≤ e.skey) && decide (e.skey ≤ floatSortKeyBits smax)) (by
    intro x _
    by_cases hx1 : floatSortKeyBits smin ≤ x.skey <;>
      by_cases hx2 : x.skey ≤ floatSortKeyBits smax <;>
        simp [hx1, hx2, Nat.not_le.mpr, Nat.lt_of_not_le])]
  rw [limitTake, Nat.sub_zero]

theorem zRevRangeByScoreEntries_spec (entries : List ZEntry) (smin smax limit : Nat)
    (hs : entries.Pairwise (fun a b => a.skey ≤ b.skey))
    (hw : ∀ e ∈ entries, e.skey < w64) :
    zRevRangeByScoreEntries entries smin smax limit =
      limitTake limit (((entries.filter (fun e =>
        decide (floatSortKeyBits smin ≤ e.skey) &&
        decide (e.skey ≤ floatSortKeyBits smax))).reverse).map entSM) := by
  have hrev : entries.reverse.Pairwise (fun a b => b.skey ≤ a.skey) :=
    List.pairwise_reverse.mpr hs
  unfold zRevRangeByScoreEntries
  rcases hoa : floatSortKeyAfterBits smax with _ | k
  · -- overflow: the maximum sort key; every well-formed entry is within bound
    have hmax : floatSortKeyBits smax = w64 - 1 := by
      unfold floatSortKeyAfterBits at hoa
      split at hoa
      · omega
      · cases hoa
    rw [zScanBwd_eq]
    rw [takeWhile_eq_filter hrev (by
      intro a b hr hq
      simp only [decide_eq_false_iff_not, Nat.not_le] at hq ⊢
      omega)]
    rw [List.filter_reverse]
    rw [List.filter_congr (q := fun e =>
      decide (floatSortKeyBits smin ≤ e.skey) && decide (e.skey ≤ floatSortKeyBits smax)) (by
      intro x hx
      have := hw x hx
      have hx2 : x.skey ≤ floatSortKeyBits smax := by omega
      simp [hx2])]
    rw [limitTake, Nat.sub_zero]
  · have hk : k = floatSortKeyBits smax + 1 := by
      unfold floatSortKeyAfterBits at hoa
      split at hoa
      · cases hoa
      · cases hoa; rfl
    dsimp only
    rw [dropWhile_eq_filter_not hrev (by
      intro a b hr hq
      simp only [decide_eq_false_iff_not, Nat.not_le] at hq ⊢
      omega)]
    rw [zScanBwd_eq]
    have hp2 : (entries.reverse.filter fun e => !decide (k ≤ e.skey)).Pairwise
        (fun a b => b.skey ≤ a.skey) := hrev.filter _
    rw [takeWhile_eq_filter hp2 (by
      intro a b hr hq
      simp only [decide_eq_false_iff_not, Nat.not_le] at hq ⊢
      omega)]
    rw [List.filter_filter]
    rw [List.filter_congr (q := fun e =>
      decide (floatSortKeyBits smin ≤ e.skey) && decide (e.skey ≤ floatSortKeyBits smax)) (by
      intro x _
      by_cases hx1 : floatSortKeyBits smin ≤ x.skey <;>
        by_cases hx2 : x.skey ≤ floatSortKeyBits smax <;>
          simp [hx1, hx2, hk] <;> omega)]
    rw [List.filter_reverse, limitTake, Nat.sub_zero]

theorem pairwise_totLe_map {l : List ZEntry} (hl : l.Pairwise (fun a b => a.skey ≤ b.skey))
    (hw : ∀ e ∈ l, e.skey < w64) :
    (l.map entSM).Pairwise (fun x y => totLe x.1 y.1) := by
  rw [List.pairwise_map]
  refine hl.imp_of_mem ?_
  intro a b ha hb hr
  have ha' := hw a ha
  have hb' := hw b hb
  show totLe (sortKeyFloatBits a.skey) (sortKeyFloatBits b.skey)
  rw [totLe_iff_key_le (sortKeyFloatBits_lt_w64 ha') (sortKeyFloatBits_lt_w64 hb'),
    floatSortKeyBits_sortKeyFloatBits ha', floatSortKeyBits_sortKeyFloatBits hb']
  exact hr

theorem pairwise_totLe_map_rev {l : List ZEntry} (hl : l.Pairwise (fun a b => b.skey ≤ a.skey))
    (hw : ∀ e ∈ l, e.skey < w64) :
    (l.map entSM).Pairwise (fun x y => totLe y.1 x.1) := by
  rw [List.pairwise_map]
  refine hl.imp_of_mem ?_
  intro a b ha hb hr
  have ha' := hw a ha
  have hb' := hw b hb
  show totLe (sortKeyFloatBits b.skey) (sortKeyFloatBits a.skey)
  rw [totLe_iff_key_le (sortKeyFloatBits_lt_w64 hb') (sortKeyFloatBits_lt_w64 ha'),
    floatSortKeyBits_sortKeyFloatBits ha', floatSortKeyBits_sortKeyFloatBits hb']
  exact hr

theorem pairwise_limitTake {α : Type} {R : α → α → Prop} {l : List α} (n : Nat)
    (h : l.Pairwise R) : (limitTake n l).Pairwise R := by
  unfold limitTake
  split
  · exact h
  · exact List.Pairwise.sublist (List.take_sublist _ _) h

/-- Claim C4 (counterexample): with the single-member sorted set holding one
member at score `-0.0` (sort key `floatSortKeyBits signMask`) and the query
range `[+0.0, +0.0]`, the member's score lies in the inclusive score range
per IEEE-754 `<=` (both directions hold, the zeros being equal), yet both the
forward and the reverse range scans return the empty list. -/
theorem c4_counterexample :
    ieeeLe 0 signMask ∧ ieeeLe signMask 0
    ∧ zRangeByScoreEntries [⟨floatSortKeyBits signMask, "a", "a"⟩] 0 0 0 = []
    ∧ zRevRangeByScoreEntries [⟨floatSortKeyBits signMask, "a", "a"⟩] 0 0 0 = [] := by
  decide

/-- Claim C4 (amended): for every sorted-hash entry list (ascending in the
ordered-map key order, with 64-bit sort keys) and all 64-bit score-bound
patterns and every limit, `zRangeByScoreWithScores` returns exactly the
members whose score lies in the inclusive range `[smin, smax]` of the
sign/magnitude sort-key order `totLe` — the order that refines IEEE-754 `<=`
by placing `-0.0` strictly below `+0.0` — in non-decreasing score order, and
`zRevRangeByScoreWithScores` returns exactly those members in non-increasing
score order; both return all matching members when `limit = 0` and at most
the first `limit` of them otherwise. -/
theorem c4_theorem (entries : List ZEntry) (smin smax limit : Nat)
    (hs : entries.Pairwise (fun a b => a.skey ≤ b.skey))
    (hw : ∀ e ∈ entries, e.skey < w64)
    (hmin : smin < w64) (hmax : smax < w64) :
    (zRangeByScoreEntries entries smin smax limit =
        limitTake limit ((entries.filter (fun e =>
          decide (totLe smin (sortKeyFloatBits e.skey)) &&
          decide (totLe (sortKeyFloatBits e.skey) smax))).map entSM)
      ∧ (zRangeByScoreEntries entries smin smax limit).Pairwise (fun x y => totLe x.1 y.1))
    ∧ (zRevRangeByScoreEntries entries smin smax limit =
        limitTake limit (((entries.filter (fun e =>
          decide (totLe smin (sortKeyFloatBits e.skey)) &&
          decide (totLe (sortKeyFloatBits e.skey) smax))).reverse).map entSM)
      ∧ (zRevRangeByScoreEntries entries smin smax limit).Pairwise (fun x y => totLe y.1 x.1)) := by
  have hcongr : ∀ x ∈ entries,
      (decide (floatSortKeyBits smin ≤ x.skey) && decide (x.skey ≤ floatSortKeyBits smax))
        = (decide (totLe smin (sortKeyFloatBits x.skey)) &&
           decide (totLe (sortKeyFloatBits x.skey) smax)) := by
    intro x hx
    have hxw := hw x hx
    have h1 : totLe smin (sortKeyFloatBits x.skey) ↔ floatSortKeyBits smin ≤ x.skey := by
      rw [totLe_iff_key_le hmin (sortKeyFloatBits_lt_w64 hxw),
        floatSortKeyBits_sortKeyFloatBits hxw]
    have h2 : totLe (sortKeyFloatBits x.skey) smax ↔ x.skey ≤ floatSortKeyBits smax := by
      rw [totLe_iff_key_le (sortKeyFloatBits_lt_w64 hxw) hmax,
        floatSortKeyBits_sortKeyFloatBits hxw]
    simp [h1, h2]
  have hfe := List.filter_congr hcongr
  have hfwd := zRangeByScoreEntries_spec entries smin smax limit hs
  have hrev := zRevRangeByScoreEntries_spec entries smin smax limit hs hw
  rw [hfe] at hfwd hrev
  have hfw : ∀ e ∈ entries.filter (fun e =>
      decide (totLe smin (sortKeyFloatBits e.skey)) &&
      decide (totLe (sortKeyFloatBits e.skey) smax)), e.skey < w64 :=
    fun e he => hw e (List.mem_of_mem_filter he)
  refine ⟨⟨hfwd, ?_⟩, hrev, ?_⟩
  · rw [hfwd]
    exact pairwise_limitTake _ (pairwise_totLe_map (hs.filter _) hfw)
  · rw [hrev]
    exact pairwise_limitTake _ (pairwise_totLe_map_rev (List.pairwise_reverse.mpr (hs.filter _))
      (fun e he => hfw e (List.mem_reverse.mp he)))

/-- Claim C4 (witness): the amended statement at the singleton sorted set
holding member `"a"` at score `+0.0` with bounds `[+0.0, +0.0]` and no
limit. -/
theorem c4_witness :
    (zRangeByScoreEntries [⟨floatSortKeyBits 0, "a", "a"⟩] 0 0 0 =
        limitTake 0 (([⟨floatSortKeyBits 0, "a", "a"⟩].filter (fun e =>
          decide (totLe 0 (sortKeyFloatBits e.skey)) &&
          decide (totLe (sortKeyFloatBits e.skey) 0))).map entSM)
      ∧ (zRangeByScoreEntries [⟨floatSortKeyBits 0, "a", "a"⟩] 0 0 0).Pairwise
          (fun x y => totLe x.1 y.1))
    ∧ (zRevRangeByScoreEntries [⟨floatSortKeyBits 0, "a", "a"⟩] 0 0 0 =
        limitTake 0 ((([⟨floatSortKeyBits 0, "a", "a"⟩].filter (fun e =>
          decide (totLe 0 (sortKeyFloatBits e.skey)) &&
          decide (totLe (sortKeyFloatBits e.skey) 0))).reverse).map entSM)
      ∧ (zRevRangeByScoreEntries [⟨floatSortKeyBits 0, "a", "a"⟩] 0 0 0).Pairwise
          (fun x y => totLe y.1 x.1)) :=
  c4_theorem [⟨floatSortKeyBits 0, "a", "a"⟩] 0 0 0 (by decide) (by decide) (by decide) (by decide)

theorem evalConds_eq (st : MemState) : ∀ ops : List SubOp,
    evalConds st ops = (ops.map (passOf st), (ops.map (passOf st)).all id) := by
  intro ops
  induction ops with
  | nil => rfl
  | cons o rest ih => simp [evalConds, ih, passOf, List.all_cons]

/-- Claim C1: for every staged transaction of at most 25 sub-operations and
every backend state, `Exec` evaluates every registered condition against the
pre-commit state and the `conditionPassed` flags record exactly those
evaluations (a handle's `ConditionalFailed()` is the flag's negation); if any
condition evaluated false, `Exec` returns `(false, nil)` and the backend
state is unchanged; if all passed, every write action is applied in
submission order and `Exec` returns `(true, nil)`. -/
theorem c1_theorem (ops : List SubOp) (st : MemState)
    (h : ops.length ≤ maxAtomicWriteOperations) :
    (execTx ops st).2.2 = ops.map (passOf st)
    ∧ ((ops.map (passOf st)).all id = false →
        execTx ops st = (.ok false, st, ops.map (passOf st)))
    ∧ ((ops.map (passOf st)).all id = true →
        execTx ops st = (.ok true, ops.foldl (fun s o => writeOf o s) st,
          ops.map (passOf st))) := by
  have hlen : ¬ ops.length > maxAtomicWriteOperations := by omega
  rcases Bool.eq_false_or_eq_true ((ops.map (passOf st)).all id) with hf | hf <;>
    simp [execTx, hlen, evalConds_eq, hf]

/-- Claim C1 (witness): scenario S3 of the spec — on a state holding
`foo ↦ bar`, a transaction staging `SetNX("foo", "bar")` (condition fails)
and `Set("baz", "qux")` (no condition) does not commit, leaves the state
unchanged, and flags exactly the first sub-operation as failed. -/
theorem c1_witness :
    execTx [SubOp.setNX "foo" "bar", SubOp.setK "baz" "qux"] (bSet [] "foo" "bar")
      = (.ok false, bSet [] "foo" "bar", [false, true]) :=
  (c1_theorem [SubOp.setNX "foo" "bar", SubOp.setK "baz" "qux"] (bSet [] "foo" "bar")
    (by decide)).2.1 (by decide)

/-- Claim C2: a staged transaction of strictly more than 25 sub-operations
fails with the "max operation count exceeded" error on every backend state,
the state is unchanged, and no condition has been evaluated: every
`conditionPassed` flag is still in its initial unset state. -/
theorem c2_theorem (ops : List SubOp) (st : MemState)
    (h : ops.length > maxAtomicWriteOperations) :
    execTx ops st = (.error "max operation count exceeded", st, ops.map fun _ => false) := by
  unfold execTx
  rw [if_pos h]

/-- Claim C2 (witness): a transaction of 26 `Set` sub-operations on the empty
state fails fast with the cap error. -/
theorem c2_witness :
    execTx (List.replicate 26 (SubOp.setK "k" "v")) [] =
      (.error "max operation count exceeded", [], List.replicate 26 false) :=
  c2_theorem (List.replicate 26 (SubOp.setK "k" "v")) [] (by decide)

/-- Claim C8: removal of the last element deletes the key for sets (`srem`)
and hashes (`hdel`), but NOT for sorted hashes: after `zhadd` of a single
field followed by `zhrem` of that field, the key still exists (it holds an
empty sorted hash), and a subsequent `Delete` of the key returns `true`
where the claim requires the key to be absent (`Delete` returning `false`). -/
theorem c8_theorem :
    (alGet "k" (bZHRem (zhadd [] "k" "a" "a" (fun _ => 0)) "k" "a")).isSome = true
    ∧ (bDelete (bZHRem (zhadd [] "k" "a" "a" (fun _ => 0)) "k" "a") "k").1 = true
    ∧ alGet "k" (bSRem (bSAdd [] "k" "a" []) "k" "a" []) = none
    ∧ alGet "k" (bHDel (bHSet [] "k" "f" "v" []) "k" "f" []) = none := by
  decide

/-- Claim C9 (counterexample): the in-memory backend does emit an error:
`IncrBy` on a key holding the non-numeric scalar "abc" returns a parse
error. -/
theorem c9_counterexample :
    (bIncrBy (bSet [] "k" "abc") "k" 1).1.isOk = false := by
  decide

/-- Claim C9 (amended): every operation of the in-memory backend returns a
nil error except `IncrBy` (`nIncrBy`), whose error result is characterized
exactly: it errors if and only if the key currently holds a scalar whose
text does not parse as a signed 64-bit decimal integer.  (All remaining
operations return a literal nil error on every path in the source and are
accordingly modelled without an error channel.) -/
theorem c9_theorem (st : MemState) (k : String) (n : Int) :
    (bIncrBy st k n).1.isOk =
      (match alGet k st with
       | some (.str s) => (parseInt64 s).isSome
       | _ => true) := by
  unfold bIncrBy
  cases hv : alGet k st with
  | none => rfl
  | some v =>
    cases v with
    | str s =>
      cases hp : parseInt64 s with
      | none => simp [toStringVal, hp, Except.isOk, Except.toBool]
      | some i => simp [toStringVal, hp, Except.isOk, Except.toBool]
    | set l => rfl
    | hash l => rfl
    | zset z => rfl

/-- Claim C10: `ZRevRangeByLex` with min bound `-` and inclusive max bound
`[f` omits the member at field `f` whenever `f` is the smallest field of the
(zero-score) sorted hash: on the sorted hash holding fields `a` and `b`, the
query `("-", "[a")` returns `[]` instead of `["a"]` — the source compares the
candidate minimum element against the `min` parameter instead of `max` in
this edge case — while the same query with max `"[b"` correctly returns
`["b", "a"]`, and `("-", "+")` returns all members in descending field
order. -/
theorem c10_theorem :
    bZRevRangeByLex
        (zhadd (zhadd [] "zs" "a" "a" (fun _ => 0)) "zs" "b" "b" (fun _ => 0))
        "zs" "-" "[a" 0 = []
    ∧ bZRevRangeByLex
        (zhadd (zhadd [] "zs" "a" "a" (fun _ => 0)) "zs" "b" "b" (fun _ => 0))
        "zs" "-" "[b" 0 = ["b", "a"]
    ∧ bZRevRangeByLex
        (zhadd (zhadd [] "zs" "a" "a" (fun _ => 0)) "zs" "b" "b" (fun _ => 0))
        "zs" "-" "+" 0 = ["b", "a"] := by
  decide

theorem invBuild_invalidations : ∀ (calls : List InvCall) (init : InvTx),
    (calls.foldl invApply init).invalidations = init.invalidations ++ calls.map callKey := by
  intro calls
  induction calls with
  | nil => intro init; simp
  | cons c rest ih =>
    intro init
    simp [List.foldl_cons, ih, invApply, List.append_assoc]

/-- Claim C7: for every transaction built through the invalidator decorator
(and hence through a `ReadCache`'s `AtomicWrite`) by any sequence of
submissions, and on every backend state — so whatever `Exec`'s outcome:
committed, condition-failed, or the operation-count error — the `Invalidate`
callback is invoked after `Exec` exactly once per sub-operation reference, on
the referenced keys in submission order. -/
theorem c7_theorem (calls : List InvCall) (st : MemState) :
    (invExec (invBuild calls) st).2 = calls.map callKey := by
  show (invBuild calls).invalidations = calls.map callKey
  unfold invBuild
  rw [invBuild_invalidations]
  simp

theorem alGet_alErase_self {κ ν : Type} [DecidableEq κ] (k : κ) :
    ∀ l : List (κ × ν), alGet k (alErase k l) = none := by
  intro l
  induction l with
  | nil => rfl
  | cons p rest ih =>
    by_cases h : p.1 = k <;> simp [alErase, alGet, List.filter_cons, h] at ih ⊢ <;>
      simpa [alErase] using ih

theorem alGet_alErase_none {κ ν : Type} [DecidableEq κ] (k k' : κ) :
    ∀ l : List (κ × ν), alGet k l = none → alGet k (alErase k' l) = none := by
  intro l
  induction l with
  | nil => intro _; rfl
  | cons p rest ih =>
    intro h
    have h1 : ¬ p.1 = k := by
      intro hh
      simp [alGet, hh] at h
    have h2 : alGet k rest = none := by
      simpa [alGet, h1] using h
    by_cases h3 : p.1 = k' <;> simp [alErase, alGet, List.filter_cons, h1, h3] at ih ⊢ <;>
      simpa [alErase] using ih h2

theorem rcInvalidate_foldl_ec : ∀ (keys : List String) (rc : RCState),
    (keys.foldl rcInvalidate rc).ec = rc.ec ∧ (keys.foldl rcInvalidate rc).inner = rc.inner := by
  intro keys
  induction keys with
  | nil => intro rc; exact ⟨rfl, rfl⟩
  | cons k0 rest ih =>
    intro rc
    simpa [rcInvalidate] using ih (rcInvalidate rc k0)

theorem rcInvalidate_foldl_pres : ∀ (keys : List String) (rc : RCState) (k : String),
    alGet k rc.strong = none → alGet k (keys.foldl rcInvalidate rc).strong = none := by
  intro keys
  induction keys with
  | nil => intro rc k h; exact h
  | cons k0 rest ih =>
    intro rc k h
    exact ih (rcInvalidate rc k0) k (alGet_alErase_none k k0 rc.strong h)

theorem rcInvalidate_foldl_strong : ∀ (keys : List String) (rc : RCState) (k : String),
    k ∈ keys → alGet k (keys.foldl rcInvalidate rc).strong = none := by
  intro keys
  induction keys with
  | nil => intro rc k hk; cases hk
  | cons k0 rest ih =>
    intro rc k hk
    rcases List.mem_cons.mp hk with h | h
    · have h2 : alGet k (rcInvalidate rc k0).strong = none := by
        rw [h]
        exact alGet_alErase_self k0 rc.strong
      exact rcInvalidate_foldl_pres rest (rcInvalidate rc k0) k h2
    · exact ih (rcInvalidate rc k0) k h

/-- Claim C6 (counterexample): the eventually-consistent plane is not
invalidated by writes.  Concretely: the inner store holds `k ↦ "old"`; an
eventually-consistent `Get` caches it; a `Set` of `k` to `"new"` through the
cache then invalidates only the strong plane, and the next
eventually-consistent `Get` of `k` still returns the stale `"old"` from the
cache while the inner store holds `"new"` — it does not consult the inner
store. -/
theorem c6_counterexample :
    (rcGet (rcSet (rcGet ⟨[], [], bSet [] "k" "old"⟩ true "k").2 "k" "new") true "k").1
      = some "old"
    ∧ bGet (rcSet (rcGet ⟨[], [], bSet [] "k" "old"⟩ true "k").2 "k" "new").inner "k"
      = some "new" := by
  decide

/-- Claim C6 (amended): every write operation performed through a `ReadCache`
(`Set`, `Delete`, `IncrBy`, `SAdd`, `SRem`, `HSet`, `HDel`, `ZAdd`, `ZHAdd`,
`ZRem`, `ZHRem`, `ZIncrBy`, and transaction writes) invalidates the affected
key in the strong cache plane only: afterwards the strong plane holds no
entry for the key (so a subsequent strongly-consistent read consults the
inner store, as spelled out for `Get`), while the eventually-consistent
plane is left exactly as it was, so an eventually-consistent read may still
be served a previously cached entry. -/
theorem c6_theorem (rc : RCState) (k f v m : String) (ms : List String)
    (fs : List (String × String)) (fss : List String) (n : Int) (s : Nat)
    (fadd : Nat → Nat → Nat) (calls : List InvCall) :
    (alGet k (rcSet rc k v).strong = none ∧ (rcSet rc k v).ec = rc.ec)
    ∧ ((rcGet (rcSet rc k v) false k).1 = bGet (rcSet rc k v).inner k)
    ∧ (alGet k (rcDelete rc k).2.strong = none ∧ (rcDelete rc k).2.ec = rc.ec)
    ∧ (alGet k (rcIncrBy rc k n).2.strong = none ∧ (rcIncrBy rc k n).2.ec = rc.ec)
    ∧ (alGet k (rcSAdd rc k m ms).strong = none ∧ (rcSAdd rc k m ms).ec = rc.ec)
    ∧ (alGet k (rcSRem rc k m ms).strong = none ∧ (rcSRem rc k m ms).ec = rc.ec)
    ∧ (alGet k (rcHSet rc k f v fs).strong = none ∧ (rcHSet rc k f v fs).ec = rc.ec)
    ∧ (alGet k (rcHDel rc k f fss).strong = none ∧ (rcHDel rc k f fss).ec = rc.ec)
    ∧ (alGet k (rcZAdd rc k m s).strong = none ∧ (rcZAdd rc k m s).ec = rc.ec)
    ∧ (alGet k (rcZHAdd rc k f m s).strong = none ∧ (rcZHAdd rc k f m s).ec = rc.ec)
    ∧ (alGet k (rcZRem rc k m).strong = none ∧ (rcZRem rc k m).ec = rc.ec)
    ∧ (alGet k (rcZHRem rc k f).strong = none ∧ (rcZHRem rc k f).ec = rc.ec)
    ∧ (alGet k (rcZIncrBy rc k m s fadd).strong = none ∧ (rcZIncrBy rc k m s fadd).ec = rc.ec)
    ∧ ((∀ key ∈ (invBuild calls).invalidations,
          alGet key (rcTxExec rc calls).2.strong = none)
        ∧ (rcTxExec rc calls).2.ec = rc.ec) := by
  refine ⟨⟨alGet_alErase_self k _, rfl⟩, ?_, ⟨alGet_alErase_self k _, rfl⟩,
    ⟨alGet_alErase_self k _, rfl⟩, ⟨alGet_alErase_self k _, rfl⟩,
    ⟨alGet_alErase_self k _, rfl⟩, ⟨alGet_alErase_self k _, rfl⟩,
    ⟨alGet_alErase_self k _, rfl⟩, ⟨alGet_alErase_self k _, rfl⟩,
    ⟨alGet_alErase_self k _, rfl⟩, ⟨alGet_alErase_self k _, rfl⟩,
    ⟨alGet_alErase_self k _, rfl⟩, ⟨alGet_alErase_self k _, rfl⟩, ?_, ?_⟩
  · have hn : alGet k (rcSet rc k v).strong = none := alGet_alErase_self k _
    unfold rcGet rcLoad
    simp [hn]
  · intro key hk
    exact rcInvalidate_foldl_strong _ _ key hk
  · exact (rcInvalidate_foldl_ec _ _).1

/-- Claim C5 (counterexample): on a two-member sorted set, caching
`ZRangeByScoreWithScores` with `limit = 2` and then repeating the query with
`limit = 1` serves the cached entry — which holds both members — although the
inner backend's answer for `limit = 1` is the single first member; the
cached result is returned as-is, not the result the inner backend would
return for the requested limit. -/
theorem c5_counterexample :
    (rcZRangeByScore
        (rcZRangeByScore
          ⟨[], [], zhadd (zhadd [] "zs" "a" "a" (fun _ => 0)) "zs" "b" "b" (fun _ => 0)⟩
          false "zs" 0 0 2).2
        false "zs" 0 0 1).1.length = 2
    ∧ (bZRangeByScore
        (zhadd (zhadd [] "zs" "a" "a" (fun _ => 0)) "zs" "b" "b" (fun _ => 0))
        "zs" 0 0 1).length = 1
    ∧ (rcZRangeByScore
        (rcZRangeByScore
          ⟨[], [], zhadd (zhadd [] "zs" "a" "a" (fun _ => 0)) "zs" "b" "b" (fun _ => 0)⟩
          false "zs" 0 0 2).2
        false "zs" 0 0 1).1
      ≠ bZRangeByScore
          (zhadd (zhadd [] "zs" "a" "a" (fun _ => 0)) "zs" "b" "b" (fun _ => 0))
          "zs" 0 0 1 := by
  decide

/-- Claim C5 (amended): once a sorted-set range query has been cached under
its `(opTag, minKey, maxKey)` sub-key with recorded limit `L`, any subsequent
identical query whose limit `l` satisfies `l ≤ L` under plain integer
comparison (so in particular any `l = 0` request once anything is cached for
the sub-key) is served from the cache without consulting the inner backend —
the cache state is unchanged — and returns the cached member list, i.e. the
inner backend's earlier answer for limit `L`, not a recomputation for limit
`l`. -/
theorem c5_theorem (rc : RCState) (g : Bool) (k : String) (smin smax : Nat)
    (sub : List ((String × Nat × Nat) × (List (Nat × String) × Nat)))
    (entry : List (Nat × String) × Nat) (limit : Nat)
    (h1 : rcLoad rc g k = some (.zE sub))
    (h2 : alGet ("zrbs", smin, smax) sub = some entry)
    (h3 : limit ≤ entry.2) :
    rcZRangeByScore rc g k smin smax limit = (entry.1, rc) := by
  unfold rcZRangeByScore
  rw [h1]
  simp [h2, h3]

/-- Claim C5 (witness): the amended statement on a concrete cache whose
strong plane holds a sub-entry for `("zrbs", +0.0, +0.0)` with two members
and recorded limit 2, queried with limit 1. -/
theorem c5_witness :
    rcZRangeByScore
        ⟨[("zs", CacheEntry.zE [(("zrbs", 0, 0), ([(0, "a"), (0, "b")], 2))])], [], []⟩
        false "zs" 0 0 1
      = ([(0, "a"), (0, "b")],
         ⟨[("zs", CacheEntry.zE [(("zrbs", 0, 0), ([(0, "a"), (0, "b")], 2))])], [], []⟩) :=
  c5_theorem
    ⟨[("zs", CacheEntry.zE [(("zrbs", 0, 0), ([(0, "a"), (0, "b")], 2))])], [], []⟩
    false "zs" 0 0 [(("zrbs", 0, 0), ([(0, "a"), (0, "b")], 2))]
    ([(0, "a"), (0, "b")], 2) 1 (by decide) (by decide) (by decide)
